import Mathlib

/-!
Verification development for the indexed-storage layer of the review
database: the category table (cursor pagination and bootstrap), the
`HostNetworkGroup` containment structure, the ordering value types
(`Ti`, `PacketAttr`, `Confidence`, `Response`), and the column-statistics
row builder (`insert_top_n`).

Byte strings (Rust `String` contents, `Vec<u8>` payloads) are modelled as
`List Nat` of byte values; Rust's byte-lexicographic comparisons become
`cmpList`.  `f64` values are modelled by their IEEE 754 bit patterns as
`Nat`, with `total_cmp` and `==` modelled on bit patterns.
-/

/-! ## Generic comparators -/

/-- Comparator for `Nat`, matching the `Ord` behaviour of Rust's unsigned
integer types. -/
def natCmp (a b : Nat) : Ordering :=
  if a < b then .lt else if b < a then .gt else .eq

/-- Comparator for `Int`, matching Rust's `i64::cmp`. -/
def intCmp (a b : Int) : Ordering :=
  if a < b then .lt else if b < a then .gt else .eq

/-- Rust's `Ordering::then`: keep the first comparison unless it is `Equal`. -/
def ordThen (o t : Ordering) : Ordering :=
  match o with
  | .eq => t
  | o' => o'

theorem ordThen_lt {o t : Ordering} :
    ordThen o t = .lt ↔ o = .lt ∨ (o = .eq ∧ t = .lt) := by
  cases o <;> simp [ordThen]

theorem ordThen_eq {o t : Ordering} :
    ordThen o t = .eq ↔ o = .eq ∧ t = .eq := by
  cases o <;> simp [ordThen]

theorem ordThen_swap (o t : Ordering) :
    (ordThen o t).swap = ordThen o.swap t.swap := by
  cases o <;> rfl

/-- Byte-lexicographic comparator on byte strings, matching Rust's
`Ord for [u8]` / `Ord for String` (bytewise, shorter prefix first). -/
def cmpList : List Nat → List Nat → Ordering
  | [], [] => .eq
  | [], _ :: _ => .lt
  | _ :: _, [] => .gt
  | a :: as, b :: bs => ordThen (natCmp a b) (cmpList as bs)

/-- Comparator on `Option`, matching Rust's derived `Ord for Option`:
`None` sorts before `Some`. -/
def optCmp (c : α → α → Ordering) : Option α → Option α → Ordering
  | none, none => .eq
  | none, some _ => .lt
  | some _, none => .gt
  | some a, some b => c a b

/-- Lexicographic pairing of two comparators, matching Rust's derived
lexicographic field-by-field comparison. -/
def prodCmp (c1 : α → α → Ordering) (c2 : β → β → Ordering) :
    α × β → α × β → Ordering := fun x y =>
  ordThen (c1 x.1 y.1) (c2 x.2 y.2)

theorem natCmp_lt_iff {a b : Nat} : natCmp a b = .lt ↔ a < b := by
  unfold natCmp
  split
  · simp_all
  · split <;> simp_all

theorem natCmp_eq_iff {a b : Nat} : natCmp a b = .eq ↔ a = b := by
  unfold natCmp
  split
  · simp
    omega
  · split <;> simp <;> omega

theorem natCmp_gt_iff {a b : Nat} : natCmp a b = .gt ↔ b < a := by
  unfold natCmp
  split
  · simp
    omega
  · split <;> simp_all

theorem intCmp_lt_iff {a b : Int} : intCmp a b = .lt ↔ a < b := by
  unfold intCmp
  split
  · simp_all
  · split <;> simp_all

theorem intCmp_eq_iff {a b : Int} : intCmp a b = .eq ↔ a = b := by
  unfold intCmp
  split
  · simp
    omega
  · split <;> simp <;> omega

theorem intCmp_gt_iff {a b : Int} : intCmp a b = .gt ↔ b < a := by
  unfold intCmp
  split
  · simp
    omega
  · split <;> simp_all

/-- A comparator that is a (decidable) total order: comparing equal exactly
on equal arguments, antisymmetric via `swap`, and transitive on `lt`. -/
structure TotalCmp (c : α → α → Ordering) : Prop where
  eq_iff : ∀ a b, c a b = .eq ↔ a = b
  swap_eq : ∀ a b, (c a b).swap = c b a
  lt_trans : ∀ a b d, c a b = .lt → c b d = .lt → c a d = .lt

theorem TotalCmp.refl {c : α → α → Ordering} (h : TotalCmp c) (a : α) :
    c a a = .eq := (h.eq_iff a a).mpr rfl

theorem TotalCmp.lt_of_gt {c : α → α → Ordering} (h : TotalCmp c) {a b : α}
    (hab : c a b = .gt) : c b a = .lt := by
  have hs := h.swap_eq a b
  rw [hab] at hs
  exact hs.symm

theorem TotalCmp.gt_of_lt {c : α → α → Ordering} (h : TotalCmp c) {a b : α}
    (hab : c a b = .lt) : c b a = .gt := by
  have hs := h.swap_eq a b
  rw [hab] at hs
  exact hs.symm

theorem TotalCmp.lt_irrefl {c : α → α → Ordering} (h : TotalCmp c) (a : α) :
    c a a ≠ .lt := by
  rw [h.refl a]
  simp

theorem TotalCmp.ne_of_lt {c : α → α → Ordering} (h : TotalCmp c) {a b : α}
    (hab : c a b = .lt) : a ≠ b := by
  rintro rfl
  exact h.lt_irrefl a hab

theorem totalCmp_nat : TotalCmp natCmp := by
  refine ⟨fun a b => natCmp_eq_iff, fun a b => ?_, fun a b d hab hbd => ?_⟩
  · rcases lt_trichotomy a b with h | h | h
    · rw [natCmp_lt_iff.mpr h, natCmp_gt_iff.mpr h]
      rfl
    · subst h
      rw [natCmp_eq_iff.mpr rfl]
      rfl
    · rw [natCmp_gt_iff.mpr h, natCmp_lt_iff.mpr h]
      rfl
  · exact natCmp_lt_iff.mpr (Nat.lt_trans (natCmp_lt_iff.mp hab) (natCmp_lt_iff.mp hbd))

theorem totalCmp_int : TotalCmp intCmp := by
  refine ⟨fun a b => intCmp_eq_iff, fun a b => ?_, fun a b d hab hbd => ?_⟩
  · rcases lt_trichotomy a b with h | h | h
    · rw [intCmp_lt_iff.mpr h, intCmp_gt_iff.mpr h]
      rfl
    · subst h
      rw [intCmp_eq_iff.mpr rfl]
      rfl
    · rw [intCmp_gt_iff.mpr h, intCmp_lt_iff.mpr h]
      rfl
  · exact intCmp_lt_iff.mpr (lt_trans (intCmp_lt_iff.mp hab) (intCmp_lt_iff.mp hbd))

theorem TotalCmp.comap {c : β → β → Ordering} (h : TotalCmp c) (f : α → β)
    (hf : ∀ a b, f a = f b → a = b) :
    TotalCmp (fun a b => c (f a) (f b)) := by
  refine ⟨fun a b => ?_, fun a b => h.swap_eq _ _, fun a b d => h.lt_trans _ _ _⟩
  constructor
  · intro he
    exact hf a b ((h.eq_iff _ _).mp he)
  · rintro rfl
    exact h.refl _

theorem cmpList_eq_iff : ∀ a b : List Nat, cmpList a b = .eq ↔ a = b := by
  intro a
  induction a with
  | nil =>
    intro b
    cases b <;> simp [cmpList]
  | cons x xs ih =>
    intro b
    cases b with
    | nil => simp [cmpList]
    | cons y ys =>
      simp [cmpList, ordThen_eq, natCmp_eq_iff, ih ys]

theorem cmpList_swap : ∀ a b : List Nat, (cmpList a b).swap = cmpList b a := by
  intro a
  induction a with
  | nil =>
    intro b
    cases b <;> rfl
  | cons x xs ih =>
    intro b
    cases b with
    | nil => rfl
    | cons y ys =>
      simp only [cmpList, ordThen_swap, ih ys, totalCmp_nat.swap_eq]

theorem cmpList_lt_trans :
    ∀ a b d : List Nat, cmpList a b = .lt → cmpList b d = .lt → cmpList a d = .lt := by
  intro a
  induction a with
  | nil =>
    intro b d hab hbd
    cases b with
    | nil => exact hbd
    | cons y ys =>
      cases d with
      | nil => simp [cmpList] at hbd
      | cons z zs => simp [cmpList]
  | cons x xs ih =>
    intro b d hab hbd
    cases b with
    | nil => simp [cmpList] at hab
    | cons y ys =>
      cases d with
      | nil => simp [cmpList] at hbd
      | cons z zs =>
        simp only [cmpList, ordThen_lt, natCmp_lt_iff, natCmp_eq_iff] at hab hbd ⊢
        rcases hab with h1 | ⟨he1, h1⟩
        · rcases hbd with h2 | ⟨he2, h2⟩
          · exact Or.inl (Nat.lt_trans h1 h2)
          · exact Or.inl (he2 ▸ h1)
        · rcases hbd with h2 | ⟨he2, h2⟩
          · exact Or.inl (he1 ▸ h2)
          · exact Or.inr ⟨he1.trans he2, ih ys zs h1 h2⟩

theorem totalCmp_list : TotalCmp cmpList :=
  ⟨cmpList_eq_iff, cmpList_swap, cmpList_lt_trans⟩

theorem TotalCmp.opt {c : α → α → Ordering} (h : TotalCmp c) :
    TotalCmp (optCmp c) := by
  refine ⟨fun a b => ?_, fun a b => ?_, fun a b d hab hbd => ?_⟩
  · cases a <;> cases b <;> simp [optCmp, h.eq_iff]
  · cases a <;> cases b
    · rfl
    · rfl
    · rfl
    · exact h.swap_eq _ _
  · cases a <;> cases b <;> cases d <;> simp_all [optCmp]
    exact h.lt_trans _ _ _ hab hbd

theorem TotalCmp.prod {c1 : α → α → Ordering} {c2 : β → β → Ordering}
    (h1 : TotalCmp c1) (h2 : TotalCmp c2) : TotalCmp (prodCmp c1 c2) := by
  refine ⟨fun a b => ?_, fun a b => ?_, fun a b d hab hbd => ?_⟩
  · rcases a with ⟨a1, a2⟩
    rcases b with ⟨b1, b2⟩
    simp [prodCmp, ordThen_eq, h1.eq_iff, h2.eq_iff, Prod.ext_iff]
  · rcases a with ⟨a1, a2⟩
    rcases b with ⟨b1, b2⟩
    simp only [prodCmp, ordThen_swap, h1.swap_eq, h2.swap_eq]
  · rcases a with ⟨a1, a2⟩
    rcases b with ⟨b1, b2⟩
    rcases d with ⟨d1, d2⟩
    simp only [prodCmp, ordThen_lt, h1.eq_iff] at hab hbd ⊢
    rcases hab with h1' | ⟨he1, h1'⟩
    · rcases hbd with h2' | ⟨he2, h2'⟩
      · exact Or.inl (h1.lt_trans _ _ _ h1' h2')
      · exact Or.inl (he2 ▸ h1')
    · rcases hbd with h2' | ⟨he2, h2'⟩
      · exact Or.inl (he1 ▸ h2')
      · exact Or.inr ⟨he1.trans he2, h2.lt_trans _ _ _ h1' h2'⟩

theorem TotalCmp.congrFn {c c' : α → α → Ordering}
    (hcc : ∀ a b, c a b = c' a b) (h : TotalCmp c') : TotalCmp c := by
  refine ⟨fun a b => ?_, fun a b => ?_, fun a b d => ?_⟩
  · rw [hcc]
    exact h.eq_iff a b
  · rw [hcc, hcc]
    exact h.swap_eq a b
  · rw [hcc, hcc, hcc]
    exact h.lt_trans a b d

/-! ## The category table -/

/-- A category record: `{ id: u32, name: String }`, the name held as its
UTF-8 byte string. -/
structure Category where
  id : Nat
  name : List Nat
deriving DecidableEq, Repr

/-- Byte string of an ASCII Lean string literal (used only for the
constant names appearing in the source). -/
def bytes (s : String) : List Nat := s.data.map Char.toNat

/-- Modelled from the spec: the category table's live records, as exposed by
the ordered KV engine's iteration.  `Category::make_indexed_key` is the
natural key (the name), so a table state is the list of live records in
ascending byte-lexicographic name order, with unique keys; the auxiliary
`deactivated` set holds ids made permanently unassignable by `deactivate`. -/
structure TableState where
  entries : List Category
  deactivated : List Nat
deriving DecidableEq, Repr

/-- The KV-store invariant: records are strictly sorted by their indexed
key (the name). -/
def SortedState (st : List Category) : Prop :=
  st.Pairwise (fun a b => cmpList a.name b.name = .lt)

/-- Modelled from the spec: `inner_iterator(From(key, Forward))` — ordered
traversal of the records whose indexed key is `>= key`, ascending. -/
def fwdScan (st : List Category) (key : List Nat) : List Category :=
  st.filter (fun c => decide (cmpList key c.name ≠ .gt))

/-- Modelled from the spec: `inner_iterator(From(key, Reverse))` — ordered
traversal of the records whose indexed key is `<= key`, descending
(rocksdb's reverse iteration starts at the last key not greater than the
target). -/
def revScan (st : List Category) (key : List Nat) : List Category :=
  (st.filter (fun c => decide (cmpList c.name key ≠ .gt))).reverse

/-- The iterator-mode dispatch of `get_n`: `From(key, Forward)`,
`From(key, Reverse)`, `From(&[0], Forward)` or `End`, depending on the
anchor and the direction. -/
def scanOf (st : List Category) (fr : Option Category) (is_first : Bool) :
    List Category :=
  match fr, is_first with
  | some f, true => fwdScan st f.name
  | some f, false => revScan st f.name
  | none, true => fwdScan st [0]
  | none, false => st.reverse

/-- The peek-and-skip step of `get_n`: skip the head of the scan exactly
when it equals the anchor record, then take `n` records. -/
def skipTake (fr : Option Category) (iter : List Category) (n : Nat) :
    List Category :=
  match fr, iter.head? with
  | some v, some c => if v = c then (iter.drop 1).take n else iter.take n
  | _, _ => iter.take n

/-- Translation of `IndexedTable::<Category>::get_n`. -/
def get_n (st : List Category) (fr : Option Category) (n : Nat) (is_first : Bool) :
    List Category :=
  skipTake fr (scanOf st fr is_first) n

/-- Translation of `IndexedTable::<Category>::get_range`. -/
def get_range (st : List Category) (before after : Option Category)
    (is_first : Bool) (limit : Nat) : List Category :=
  match before.isSome, after.isSome with
  | true, false => get_n st before limit false
  | false, true => get_n st after limit true
  | _, _ => get_n st none limit is_first

/-- Keys already carrying a live record or retired: ids in use. -/
def usedIds (st : TableState) : List Nat :=
  st.entries.map (fun c => c.id) ++ st.deactivated

/-- First candidate at or above `c` not in `used`, with enough fuel to
scan past every used id. -/
def allocFrom (used : List Nat) : Nat → Nat → Nat
  | 0, c => c
  | fuel + 1, c => if used.contains c then allocFrom used fuel (c + 1) else c

/-- Modelled from the spec: id allocation of `IndexedMap::insert` — "the
next free numeric id (reusing the smallest previously-removed id before
advancing the counter)", i.e. the smallest id neither live nor
deactivated. -/
def alloc (used : List Nat) : Nat := allocFrom used (used.length + 1) 0

/-- Keep the name-sorted order of the record region on insertion. -/
def insertSorted (c : Category) : List Category → List Category
  | [] => [c]
  | d :: rest =>
    if cmpList c.name d.name = .lt then c :: d :: rest else d :: insertSorted c rest

/-- Modelled from the spec: `IndexedMap::insert` behind `add(name)` —
allocates the next free id, writes the record, and fails if the name
already exists. -/
def add (st : TableState) (name : List Nat) : Except String (Nat × TableState) :=
  if st.entries.any (fun c => decide (c.name = name)) then
    .error "key already exists"
  else
    let id := alloc (usedIds st)
    .ok (id, ⟨insertSorted ⟨id, name⟩ st.entries, st.deactivated⟩)

/-- Modelled from the spec: `IndexedMap::remove` — deletes the record,
leaving the id eligible for reuse. -/
def remove (st : TableState) (id : Nat) : TableState :=
  ⟨st.entries.filter (fun c => decide (c.id ≠ id)), st.deactivated⟩

/-- Modelled from the spec: `IndexedMap::deactivate` — marks the id as
permanently unassignable.  The repository's own tests pin that the
deactivated throwaway record does not appear in `count` or in iteration
after `setup` (count is `entries + 2` and `get_range(None, None, false, 2)`
never yields the throwaway), so deactivation also retires the record from
the live region. -/
def deactivate (st : TableState) (id : Nat) : TableState :=
  ⟨st.entries.filter (fun c => decide (c.id ≠ id)), id :: st.deactivated⟩

/-- `IndexedMap::count`: number of live records. -/
def count (st : TableState) : Nat := st.entries.length

/-- The two fixed default entries of the category table. -/
def DEFAULT_ENTRIES : List (Nat × List Nat) :=
  [(1, bytes "Non-Specified Alert"), (2, bytes "Irrelevant Alert")]

/-- Translation of the `for (id, name) in DEFAULT_ENTRIES` loop of
`setup`: add each default entry; on an unexpected id, remove the entry
just added and return `Ok` early. -/
def setupLoop (st : TableState) : List (Nat × List Nat) → Except String TableState
  | [] => .ok st
  | (id, name) :: rest =>
    match add st name with
    | .error e => .error e
    | .ok (added, st') =>
      if added ≠ id then .ok (remove st' added) else setupLoop st' rest

/-- Translation of `IndexedTable::<Category>::setup`. -/
def setup (st : TableState) : Except String TableState :=
  if count st > 0 then .ok st
  else
    match add st (bytes "dummy") with
    | .error e => .error e
    | .ok (added, st1) =>
      if added ≠ 0 then .ok (remove st1 added)
      else setupLoop (deactivate st1 added) DEFAULT_ENTRIES

/-! ## Pagination lemmas -/

theorem mem_fwdScan {st : List Category} {key : List Nat} {c : Category} :
    c ∈ fwdScan st key ↔ c ∈ st ∧ cmpList key c.name ≠ .gt := by
  simp [fwdScan, List.mem_filter]

theorem mem_revScan {st : List Category} {key : List Nat} {c : Category} :
    c ∈ revScan st key ↔ c ∈ st ∧ cmpList c.name key ≠ .gt := by
  simp [revScan, List.mem_filter]

theorem fwdScan_pairwise {st : List Category} {key : List Nat}
    (h : SortedState st) :
    (fwdScan st key).Pairwise (fun a b => cmpList a.name b.name = .lt) :=
  List.Pairwise.sublist (List.filter_sublist st) h

theorem revScan_pairwise {st : List Category} {key : List Nat}
    (h : SortedState st) :
    (revScan st key).Pairwise (fun a b => cmpList b.name a.name = .lt) :=
  List.pairwise_reverse.mpr (List.Pairwise.sublist (List.filter_sublist st) h)

theorem skipTake_sublist (fr : Option Category) (iter : List Category) (n : Nat) :
    (skipTake fr iter n).Sublist iter := by
  unfold skipTake
  rcases fr with _ | v
  · exact List.take_sublist n iter
  · rcases h : iter.head? with _ | c
    · exact List.take_sublist n iter
    · by_cases hv : v = c
      · simp only [hv, if_pos rfl]
        exact (List.take_sublist n _).trans (List.drop_sublist 1 iter)
      · simp only [if_neg hv]
        exact List.take_sublist n iter

theorem skipTake_length_le (fr : Option Category) (iter : List Category) (n : Nat) :
    (skipTake fr iter n).length ≤ n := by
  unfold skipTake
  rcases fr with _ | v
  · exact List.length_take_le n iter
  · rcases h : iter.head? with _ | c
    · exact List.length_take_le n iter
    · by_cases hv : v = c
      · simp only [hv, if_pos rfl]
        exact List.length_take_le n _
      · simp only [if_neg hv]
        exact List.length_take_le n iter

theorem get_n_length_le (st : List Category) (fr : Option Category) (n : Nat)
    (b : Bool) : (get_n st fr n b).length ≤ n :=
  skipTake_length_le fr (scanOf st fr b) n

theorem get_n_sublist (st : List Category) (fr : Option Category) (n : Nat)
    (b : Bool) : (get_n st fr n b).Sublist (scanOf st fr b) :=
  skipTake_sublist fr (scanOf st fr b) n

theorem skipTake_none (iter : List Category) (n : Nat) :
    skipTake none iter n = iter.take n := by
  unfold skipTake
  cases iter.head? <;> rfl

theorem get_range_before (st : List Category) (x : Category) (b : Bool) (k : Nat) :
    get_range st (some x) none b k = skipTake (some x) (revScan st x.name) k := rfl

theorem get_range_after (st : List Category) (x : Category) (b : Bool) (k : Nat) :
    get_range st none (some x) b k = skipTake (some x) (fwdScan st x.name) k := rfl

/-- Every record returned by a forward cursored scan strictly follows the
cursor's position, provided no other live record shares the cursor's name. -/
theorem skipTake_fwd_strict {st : List Category} {x : Category} {n : Nat}
    (h : SortedState st) (hx : ∀ c ∈ st, c.name = x.name → c = x) :
    ∀ c ∈ skipTake (some x) (fwdScan st x.name) n, cmpList x.name c.name = .lt := by
  intro c hc
  rcases hiter : fwdScan st x.name with _ | ⟨hd, tl⟩
  · rw [hiter] at hc
    simp [skipTake] at hc
  · have hpw := @fwdScan_pairwise st x.name h
    rw [hiter] at hc hpw
    rw [List.pairwise_cons] at hpw
    simp only [skipTake, List.head?_cons, List.drop_succ_cons, List.drop_zero] at hc
    by_cases hxh : x = hd
    · rw [if_pos hxh] at hc
      have hctl : c ∈ tl := (List.take_sublist n tl).subset hc
      exact hxh ▸ hpw.1 c hctl
    · rw [if_neg hxh] at hc
      have hciter : c ∈ hd :: tl := (List.take_sublist n _).subset hc
      have hcst : c ∈ st ∧ cmpList x.name c.name ≠ .gt := by
        rw [← hiter] at hciter
        exact mem_fwdScan.mp hciter
      rcases ho : cmpList x.name c.name with _ | _ | _
      · rfl
      · have hname : x.name = c.name := (cmpList_eq_iff _ _).mp ho
        have hcx : c = x := hx c hcst.1 hname.symm
        subst hcx
        rcases List.mem_cons.mp hciter with heq | hctl
        · exact absurd heq hxh
        · have hlt : cmpList hd.name c.name = .lt := hpw.1 c hctl
          have hhd : hd ∈ st ∧ cmpList c.name hd.name ≠ .gt := by
            have : hd ∈ fwdScan st c.name := by
              rw [hiter]
              exact List.mem_cons_self hd tl
            exact mem_fwdScan.mp this
          exact absurd (totalCmp_list.gt_of_lt hlt) hhd.2
      · exact absurd ho hcst.2

/-- Mirror image of `skipTake_fwd_strict` for the reverse scan. -/
theorem skipTake_rev_strict {st : List Category} {x : Category} {n : Nat}
    (h : SortedState st) (hx : ∀ c ∈ st, c.name = x.name → c = x) :
    ∀ c ∈ skipTake (some x) (revScan st x.name) n, cmpList c.name x.name = .lt := by
  intro c hc
  rcases hiter : revScan st x.name with _ | ⟨hd, tl⟩
  · rw [hiter] at hc
    simp [skipTake] at hc
  · have hpw := @revScan_pairwise st x.name h
    rw [hiter] at hc hpw
    rw [List.pairwise_cons] at hpw
    simp only [skipTake, List.head?_cons, List.drop_succ_cons, List.drop_zero] at hc
    by_cases hxh : x = hd
    · rw [if_pos hxh] at hc
      have hctl : c ∈ tl := (List.take_sublist n tl).subset hc
      exact hxh ▸ hpw.1 c hctl
    · rw [if_neg hxh] at hc
      have hciter : c ∈ hd :: tl := (List.take_sublist n _).subset hc
      have hcst : c ∈ st ∧ cmpList c.name x.name ≠ .gt := by
        rw [← hiter] at hciter
        exact mem_revScan.mp hciter
      rcases ho : cmpList c.name x.name with _ | _ | _
      · rfl
      · have hname : c.name = x.name := (cmpList_eq_iff _ _).mp ho
        have hcx : c = x := hx c hcst.1 hname
        subst hcx
        rcases List.mem_cons.mp hciter with heq | hctl
        · exact absurd heq hxh
        · have hlt : cmpList c.name hd.name = .lt := hpw.1 c hctl
          have hhd : hd ∈ st ∧ cmpList hd.name c.name ≠ .gt := by
            have : hd ∈ revScan st c.name := by
              rw [hiter]
              exact List.mem_cons_self hd tl
            exact mem_revScan.mp this
          exact absurd (totalCmp_list.gt_of_lt hlt) hhd.2
      · exact absurd ho hcst.2

/-- C1 (amended): for every sorted table state, cursor `x` and limit `k`,
provided every live record bearing `x`'s name is `x` itself (in particular
whenever `x` is live, or no live record has its name), the `before` query
returns at most `k` records, each strictly preceding `x`'s position, in
descending order, excluding `x`; and the `after` query returns at most `k`
records, each strictly following `x`'s position, in ascending order,
excluding `x`. -/
theorem c1_cursor_range (st : List Category) (x : Category) (k : Nat) (b : Bool)
    (h : SortedState st) (hx : ∀ c ∈ st, c.name = x.name → c = x) :
    ((get_range st (some x) none b k).length ≤ k
      ∧ (∀ c ∈ get_range st (some x) none b k, cmpList c.name x.name = .lt)
      ∧ (get_range st (some x) none b k).Pairwise
          (fun c d => cmpList d.name c.name = .lt)
      ∧ x ∉ get_range st (some x) none b k)
    ∧ ((get_range st none (some x) b k).length ≤ k
      ∧ (∀ c ∈ get_range st none (some x) b k, cmpList x.name c.name = .lt)
      ∧ (get_range st none (some x) b k).Pairwise
          (fun c d => cmpList c.name d.name = .lt)
      ∧ x ∉ get_range st none (some x) b k) := by
  constructor
  · rw [get_range_before]
    refine ⟨skipTake_length_le _ _ _, skipTake_rev_strict h hx, ?_, ?_⟩
    · exact List.Pairwise.sublist (skipTake_sublist _ _ _) (revScan_pairwise h)
    · intro hmem
      exact totalCmp_list.lt_irrefl x.name (skipTake_rev_strict h hx x hmem)
  · rw [get_range_after]
    refine ⟨skipTake_length_le _ _ _, skipTake_fwd_strict h hx, ?_, ?_⟩
    · exact List.Pairwise.sublist (skipTake_sublist _ _ _) (fwdScan_pairwise h)
    · intro hmem
      exact totalCmp_list.lt_irrefl x.name (skipTake_fwd_strict h hx x hmem)

/-- C1 counterexample: with one live record `{id 5, name "a"}` and the stale
cursor `{id 7, name "a"}` (same name, different id), the `before` query
returns that record, which does not strictly precede the cursor's
position. -/
theorem c1_counterexample :
    SortedState [⟨5, [97]⟩]
    ∧ ¬ (∀ c ∈ get_range [⟨5, [97]⟩] (some ⟨7, [97]⟩) none false 1,
          cmpList c.name [97] = .lt) := by
  constructor
  · simp [SortedState]
  · decide

/-- Witness: `c1_cursor_range` applied to a concrete two-record table with a
live cursor. -/
theorem c1_witness :
    (⟨2, [98]⟩ : Category) ∉
      get_range [⟨1, [97]⟩, ⟨2, [98]⟩] (some ⟨2, [98]⟩) none false 1 :=
  (c1_cursor_range [⟨1, [97]⟩, ⟨2, [98]⟩] ⟨2, [98]⟩ 1 false
    (by unfold SortedState; decide) (by decide)).1.2.2.2

theorem cmpList_zero_le {name : List Nat} (h : name ≠ []) :
    cmpList [0] name ≠ .gt := by
  cases name with
  | nil => exact absurd rfl h
  | cons b t =>
    show ordThen (natCmp 0 b) (cmpList [] t) ≠ .gt
    rcases hb : natCmp 0 b with _ | _ | _
    · simp [ordThen]
    · cases t <;> simp [ordThen, cmpList]
    · exact absurd (natCmp_gt_iff.mp hb) (Nat.not_lt_zero b)

/-- C2 (amended): with exactly one cursor supplied, that cursor drives the
scan and `is_first` is ignored; with both cursors or neither, `is_first`
alone drives it — `is_first = true` yields the first `limit` records in
ascending order provided no record has an empty name (the forward scan
starts at the key `[0x00]`, which skips an empty name), and
`is_first = false` yields the last `limit` records in descending order. -/
theorem c2_is_first_semantics (st : List Category) (k : Nat)
    (h : SortedState st) (hne : ∀ c ∈ st, c.name ≠ []) :
    (∀ x b b', get_range st (some x) none b k = get_range st (some x) none b' k)
    ∧ (∀ x b b', get_range st none (some x) b k = get_range st none (some x) b' k)
    ∧ (∀ x y b, get_range st (some x) (some y) b k = get_range st none none b k)
    ∧ get_range st none none true k = st.take k
    ∧ get_range st none none false k = st.reverse.take k := by
  refine ⟨fun x b b' => rfl, fun x b b' => rfl, fun x y b => rfl, ?_, ?_⟩
  · have hfs : fwdScan st [0] = st :=
      List.filter_eq_self.mpr (fun c hc => by
        simpa using cmpList_zero_le (hne c hc))
    show skipTake none (fwdScan st [0]) k = st.take k
    rw [skipTake_none, hfs]
  · show skipTake none st.reverse k = st.reverse.take k
    rw [skipTake_none]

/-- C2 counterexample: a table whose single record has the empty name.  The
record's key precedes the scan origin `[0x00]`, so
`get_range(None, None, true, 1)` misses it and does not return the first
entry of the table. -/
theorem c2_counterexample :
    SortedState [⟨1, []⟩]
    ∧ get_range [⟨1, []⟩] none none true 1 ≠ List.take 1 [⟨1, []⟩] := by
  constructor
  · simp [SortedState]
  · decide

/-- Witness: `c2_is_first_semantics` applied to a concrete two-record
table. -/
theorem c2_witness :
    get_range [⟨1, [97]⟩, ⟨2, [98]⟩] none none true 2 =
      List.take 2 [⟨1, [97]⟩, ⟨2, [98]⟩] :=
  (c2_is_first_semantics [⟨1, [97]⟩, ⟨2, [98]⟩] 2
    (by unfold SortedState; decide) (by decide)).2.2.2.1

theorem skipTake_head_eq {x : Category} (iter : List Category) (n : Nat)
    (hhd : iter.head? = some x) :
    skipTake (some x) iter n = (iter.drop 1).take n := by
  unfold skipTake
  rw [hhd]
  exact if_pos rfl

theorem skipTake_head_ne {x c : Category} (iter : List Category) (n : Nat)
    (hhd : iter.head? = some c) (hne : c ≠ x) :
    skipTake (some x) iter n = iter.take n := by
  unfold skipTake
  rw [hhd]
  exact if_neg (fun he => hne he.symm)

/-- After skipping a head equal to the cursor, the cursor itself is not in
the returned tail (keys are unique in a sorted state). -/
theorem not_mem_drop_head {x : Category} {iter : List Category} {n : Nat}
    (hpw : iter.Pairwise (fun a b => cmpList a.name b.name = .lt)
        ∨ iter.Pairwise (fun a b => cmpList b.name a.name = .lt))
    (hhd : iter.head? = some x) : x ∉ (iter.drop 1).take n := by
  intro hmem
  rcases iter with _ | ⟨hd, tl⟩
  · simp at hhd
  · simp only [List.head?_cons, Option.some.injEq] at hhd
    simp only [List.drop_succ_cons, List.drop_zero] at hmem
    have hxtl : x ∈ tl := (List.take_sublist n tl).subset hmem
    rcases hpw with hpw | hpw <;> rw [List.pairwise_cons] at hpw
    · have hlt := hpw.1 x hxtl
      rw [hhd] at hlt
      exact totalCmp_list.lt_irrefl x.name hlt
    · have hlt := hpw.1 x hxtl
      rw [hhd] at hlt
      exact totalCmp_list.lt_irrefl x.name hlt

/-- C3: in a cursored scan the head record is skipped exactly when it equals
the cursor value (id and name both); with a stale cursor (no live record at
the head equal to it) nothing is skipped and the scan still returns up to
`limit` records from that position. -/
theorem c3_cursor_skip (st : List Category) (x : Category) (k : Nat) (b : Bool)
    (h : SortedState st) :
    ((revScan st x.name).head? = some x →
        get_range st (some x) none b k = ((revScan st x.name).drop 1).take k
        ∧ x ∉ get_range st (some x) none b k)
    ∧ (∀ c, (revScan st x.name).head? = some c → c ≠ x →
        get_range st (some x) none b k = (revScan st x.name).take k
        ∧ (get_range st (some x) none b k).length = min k (revScan st x.name).length)
    ∧ ((fwdScan st x.name).head? = some x →
        get_range st none (some x) b k = ((fwdScan st x.name).drop 1).take k
        ∧ x ∉ get_range st none (some x) b k)
    ∧ (∀ c, (fwdScan st x.name).head? = some c → c ≠ x →
        get_range st none (some x) b k = (fwdScan st x.name).take k
        ∧ (get_range st none (some x) b k).length = min k (fwdScan st x.name).length) := by
  refine ⟨fun hhd => ⟨?_, ?_⟩, fun c hhd hcx => ⟨?_, ?_⟩,
    fun hhd => ⟨?_, ?_⟩, fun c hhd hcx => ⟨?_, ?_⟩⟩
  · rw [get_range_before, skipTake_head_eq _ _ hhd]
  · rw [get_range_before, skipTake_head_eq _ _ hhd]
    exact not_mem_drop_head (Or.inr (revScan_pairwise h)) hhd
  · rw [get_range_before, skipTake_head_ne _ _ hhd hcx]
  · rw [get_range_before, skipTake_head_ne _ _ hhd hcx]
    exact List.length_take k _
  · rw [get_range_after, skipTake_head_eq _ _ hhd]
  · rw [get_range_after, skipTake_head_eq _ _ hhd]
    exact not_mem_drop_head (Or.inl (fwdScan_pairwise h)) hhd
  · rw [get_range_after, skipTake_head_ne _ _ hhd hcx]
  · rw [get_range_after, skipTake_head_ne _ _ hhd hcx]
    exact List.length_take k _

/-- Witness: `c3_cursor_skip` applied to a concrete two-record table whose
cursor is the live head of the reverse scan. -/
theorem c3_witness :
    get_range [⟨1, [97]⟩, ⟨2, [98]⟩] (some ⟨2, [98]⟩) none false 1 =
      ((revScan [⟨1, [97]⟩, ⟨2, [98]⟩] [98]).drop 1).take 1 :=
  ((c3_cursor_skip [⟨1, [97]⟩, ⟨2, [98]⟩] ⟨2, [98]⟩ 1 false
    (by unfold SortedState; decide)).1 (by decide)).1

theorem allocFrom_ge (used : List Nat) :
    ∀ fuel c, c ≤ allocFrom used fuel c := by
  intro fuel
  induction fuel with
  | zero =>
    intro c
    exact Nat.le_refl c
  | succ n ih =>
    intro c
    unfold allocFrom
    split
    · exact Nat.le_trans (Nat.le_succ c) (ih (c + 1))
    · exact Nat.le_refl c

/-- A deactivated id `0` is never handed out again by the allocator. -/
theorem alloc_ne_zero {used : List Nat} (h0 : 0 ∈ used) : alloc used ≠ 0 := by
  unfold alloc allocFrom
  rw [if_pos (by simpa using h0)]
  show allocFrom used used.length 1 ≠ 0
  have hge := allocFrom_ge used used.length 1
  omega

/-- C4: after `setup()` on an empty category table, `count()` is `2` — the
two default entries "Non-Specified Alert" (id 1) and "Irrelevant Alert"
(id 2) — id `0` is deactivated, and no subsequent `add` (nor any later
sequence of `add`/`remove`/`deactivate`, which all preserve the
deactivation of `0`) ever returns id `0`. -/
theorem c4_setup_defaults :
    setup ⟨[], []⟩ =
      .ok ⟨[⟨2, bytes "Irrelevant Alert"⟩, ⟨1, bytes "Non-Specified Alert"⟩], [0]⟩
    ∧ count ⟨[⟨2, bytes "Irrelevant Alert"⟩, ⟨1, bytes "Non-Specified Alert"⟩], [0]⟩ = 2
    ∧ (0 : Nat) ∈ TableState.deactivated
        ⟨[⟨2, bytes "Irrelevant Alert"⟩, ⟨1, bytes "Non-Specified Alert"⟩], [0]⟩
    ∧ (∀ st : TableState, ∀ name id st', 0 ∈ st.deactivated →
        add st name = .ok (id, st') → id ≠ 0 ∧ 0 ∈ st'.deactivated)
    ∧ (∀ st : TableState, ∀ i, 0 ∈ st.deactivated →
        0 ∈ (remove st i).deactivated ∧ 0 ∈ (deactivate st i).deactivated) := by
  refine ⟨by rfl, rfl, by simp, ?_, ?_⟩
  · intro st name id st' h0 hadd
    unfold add at hadd
    by_cases hdup : st.entries.any (fun c => decide (c.name = name))
    · rw [if_pos hdup] at hadd
      exact absurd hadd (by simp)
    · rw [if_neg hdup] at hadd
      have h1 : alloc (usedIds st) = id ∧
          (⟨insertSorted ⟨alloc (usedIds st), name⟩ st.entries, st.deactivated⟩ :
            TableState) = st' := by
        have := hadd
        simp only [Except.ok.injEq, Prod.mk.injEq] at this
        exact ⟨this.1, this.2⟩
      have h0u : 0 ∈ usedIds st := by
        unfold usedIds
        exact List.mem_append_right _ h0
      constructor
      · rw [← h1.1]
        exact alloc_ne_zero h0u
      · rw [← h1.2]
        exact h0
  · intro st i h0
    exact ⟨h0, List.mem_cons_of_mem _ h0⟩

/-- Witness: `c4_setup_defaults`'s preservation clause applied to the
post-setup state and a concrete `add`. -/
theorem c4_witness :
    (3 : Nat) ≠ 0
    ∧ (0 : Nat) ∈ TableState.deactivated
        ⟨[⟨2, bytes "Irrelevant Alert"⟩, ⟨1, bytes "Non-Specified Alert"⟩,
          ⟨3, bytes "a"⟩], [0]⟩ :=
  c4_setup_defaults.2.2.2.1
    ⟨[⟨2, bytes "Irrelevant Alert"⟩, ⟨1, bytes "Non-Specified Alert"⟩], [0]⟩
    (bytes "a") 3
    ⟨[⟨2, bytes "Irrelevant Alert"⟩, ⟨1, bytes "Non-Specified Alert"⟩,
      ⟨3, bytes "a"⟩], [0]⟩
    (by simp) (by rfl)

/-- C5: whenever an entry inserted during `setup` (the throwaway entry, or
any default entry in the loop) does not land on its expected id, `setup`
removes that just-inserted entry and returns `Ok` — the loser's write is
backed out and no error is surfaced. -/
theorem c5_setup_rollback (st : TableState) :
    (∀ a st1, count st = 0 → add st (bytes "dummy") = .ok (a, st1) → a ≠ 0 →
        setup st = .ok (remove st1 a) ∧ remove st1 a = st)
    ∧ (∀ id name rest a st1, add st name = .ok (a, st1) → a ≠ id →
        setupLoop st ((id, name) :: rest) = .ok (remove st1 a)
        ∧ a ∉ (remove st1 a).entries.map (fun c => c.id)) := by
  constructor
  · intro a st1 h0 hadd hne
    constructor
    · unfold setup
      rw [if_neg (by omega), hadd]
      exact if_pos hne
    · rcases st with ⟨entries, deact⟩
      have hent : entries = [] := List.length_eq_zero.mp h0
      subst hent
      unfold add at hadd
      rw [if_neg (by simp)] at hadd
      simp only [Except.ok.injEq, Prod.mk.injEq] at hadd
      rcases hadd with ⟨ha, hst⟩
      rw [← hst]
      unfold remove insertSorted
      simp [ha]
  · intro id name rest a st1 hadd hne
    constructor
    · unfold setupLoop
      rw [hadd]
      exact if_pos hne
    · intro hmem
      simp only [remove, List.mem_map, List.mem_filter, decide_eq_true_eq] at hmem
      rcases hmem with ⟨c, ⟨_, hcne⟩, hcid⟩
      exact hcne hcid

/-- Witness: `c5_setup_rollback` on the state left by a completed setup
whose records were all removed again: the throwaway entry gets id 1, is
backed out, and `setup` reports success. -/
theorem c5_witness :
    setup ⟨[], [0]⟩ = .ok (remove ⟨[⟨1, bytes "dummy"⟩], [0]⟩ 1)
    ∧ remove ⟨[⟨1, bytes "dummy"⟩], [0]⟩ 1 = ⟨[], [0]⟩ :=
  (c5_setup_rollback ⟨[], [0]⟩).1 1 ⟨[⟨1, bytes "dummy"⟩], [0]⟩ rfl (by rfl)
    (by decide)

/-! ## Sorting and adjacent deduplication (Rust `sort_unstable` + `dedup`) -/

theorem TotalCmp.not_gt_iff {c : α → α → Ordering} (h : TotalCmp c) {a b : α} :
    c a b ≠ .gt ↔ (c a b = .lt ∨ a = b) := by
  constructor
  · intro hng
    rcases hc : c a b with _ | _ | _
    · exact Or.inl rfl
    · exact Or.inr ((h.eq_iff a b).mp hc)
    · exact absurd hc hng
  · intro hor
    rcases hor with hlt | he
    · rw [hlt]
      simp
    · rw [he, h.refl b]
      simp

theorem TotalCmp.le_trans {c : α → α → Ordering} (h : TotalCmp c) {a b d : α}
    (hab : c a b ≠ .gt) (hbd : c b d ≠ .gt) : c a d ≠ .gt := by
  rcases h.not_gt_iff.mp hab with h1 | he1
  · rcases h.not_gt_iff.mp hbd with h2 | he2
    · exact h.not_gt_iff.mpr (Or.inl (h.lt_trans _ _ _ h1 h2))
    · exact h.not_gt_iff.mpr (Or.inl (he2 ▸ h1))
  · subst he1
    exact hbd

theorem TotalCmp.eq_of_le_le {c : α → α → Ordering} (h : TotalCmp c) {a b : α}
    (h1 : c a b ≠ .gt) (h2 : c b a ≠ .gt) : a = b := by
  rcases h.not_gt_iff.mp h1 with hlt | he
  · exact absurd (h.gt_of_lt hlt) h2
  · exact he

/-- Sorted insertion with respect to a comparator (used to model Rust's
`sort_unstable`/`sort_unstable_by`, an unspecified comparison sort). -/
def insertCmp (c : α → α → Ordering) (a : α) : List α → List α
  | [] => [a]
  | b :: t => if c a b ≠ .gt then a :: b :: t else b :: insertCmp c a t

/-- Comparison sort modelling `sort_unstable`/`sort_unstable_by`. -/
def sortCmp (c : α → α → Ordering) : List α → List α
  | [] => []
  | a :: t => insertCmp c a (sortCmp c t)

/-- Rust's `Vec::dedup`: remove consecutive equal elements. -/
def dedupAdj [DecidableEq α] : List α → List α
  | [] => []
  | [a] => [a]
  | a :: b :: rest =>
    if a = b then dedupAdj (b :: rest) else a :: dedupAdj (b :: rest)

theorem mem_insertCmp {c : α → α → Ordering} (a x : α) :
    ∀ l : List α, x ∈ insertCmp c a l ↔ x = a ∨ x ∈ l := by
  intro l
  induction l with
  | nil => simp [insertCmp]
  | cons b t ih =>
    unfold insertCmp
    split
    · simp [List.mem_cons]
    · simp only [List.mem_cons, ih]
      tauto

theorem mem_sortCmp {c : α → α → Ordering} {x : α} :
    ∀ l : List α, x ∈ sortCmp c l ↔ x ∈ l := by
  intro l
  induction l with
  | nil => simp [sortCmp]
  | cons a t ih =>
    unfold sortCmp
    rw [mem_insertCmp, ih]
    simp [List.mem_cons]

theorem insertCmp_pairwise {c : α → α → Ordering} (h : TotalCmp c) (a : α) :
    ∀ l : List α, l.Pairwise (fun x y => c x y ≠ .gt) →
      (insertCmp c a l).Pairwise (fun x y => c x y ≠ .gt) := by
  intro l
  induction l with
  | nil =>
    intro _
    simp [insertCmp]
  | cons b t ih =>
    intro hpw
    rw [List.pairwise_cons] at hpw
    unfold insertCmp
    split
    · rename_i hle
      rw [List.pairwise_cons]
      refine ⟨?_, List.pairwise_cons.mpr hpw⟩
      intro x hx
      rcases List.mem_cons.mp hx with he | hxt
      · exact he ▸ hle
      · exact h.le_trans hle (hpw.1 x hxt)
    · rename_i hng
      have hgt : c a b = .gt := not_not.mp hng
      rw [List.pairwise_cons]
      refine ⟨?_, ih hpw.2⟩
      intro x hx
      rcases (mem_insertCmp a x _).mp hx with he | hxt
      · rw [he, h.lt_of_gt hgt]
        simp
      · exact hpw.1 x hxt

theorem sortCmp_pairwise {c : α → α → Ordering} (h : TotalCmp c) :
    ∀ l : List α, (sortCmp c l).Pairwise (fun x y => c x y ≠ .gt) := by
  intro l
  induction l with
  | nil => simp [sortCmp]
  | cons a t ih =>
    unfold sortCmp
    exact insertCmp_pairwise h a _ ih

theorem mem_dedupAdj [DecidableEq α] :
    ∀ (l : List α) (x : α), x ∈ dedupAdj l ↔ x ∈ l := by
  intro l
  induction l with
  | nil =>
    intro x
    simp [dedupAdj]
  | cons a t ih =>
    intro x
    cases t with
    | nil => simp [dedupAdj]
    | cons b rest =>
      by_cases hab : a = b
      · rw [show dedupAdj (a :: b :: rest) = dedupAdj (b :: rest) from by
          simp [dedupAdj, hab]]
        rw [ih x]
        subst hab
        simp [List.mem_cons]
      · rw [show dedupAdj (a :: b :: rest) = a :: dedupAdj (b :: rest) from by
          simp [dedupAdj, hab]]
        simp only [List.mem_cons, ih x]

/-- Deduplicating a weakly sorted list yields a strictly sorted list. -/
theorem dedupAdj_pairwise {c : α → α → Ordering} [DecidableEq α]
    (h : TotalCmp c) :
    ∀ l : List α, l.Pairwise (fun a b => c a b ≠ .gt) →
      (dedupAdj l).Pairwise (fun a b => c a b = .lt) := by
  intro l
  induction l with
  | nil =>
    intro _
    simp [dedupAdj]
  | cons a t ih =>
    intro hpw
    cases t with
    | nil => simp [dedupAdj]
    | cons b rest =>
      rw [List.pairwise_cons] at hpw
      by_cases hab : a = b
      · rw [show dedupAdj (a :: b :: rest) = dedupAdj (b :: rest) from by
          simp [dedupAdj, hab]]
        exact ih hpw.2
      · rw [show dedupAdj (a :: b :: rest) = a :: dedupAdj (b :: rest) from by
          simp [dedupAdj, hab]]
        rw [List.pairwise_cons]
        refine ⟨?_, ih hpw.2⟩
        intro x hx
        have hxmem : x ∈ b :: rest := (mem_dedupAdj _ _).mp hx
        rcases h.not_gt_iff.mp (hpw.1 x hxmem) with hlt | he
        · exact hlt
        · subst he
          rcases List.mem_cons.mp hxmem with he2 | hrest
          · exact absurd he2 hab
          · have hb := (List.pairwise_cons.mp hpw.2).1 a hrest
            have hab' := hpw.1 b (List.mem_cons_self b rest)
            exact absurd (h.eq_of_le_le hab' hb) hab

/-- `sort_unstable` (by the comparator) followed by `dedup`. -/
def sortDedup (c : α → α → Ordering) [DecidableEq α] (l : List α) : List α :=
  dedupAdj (sortCmp c l)

theorem mem_sortDedup {c : α → α → Ordering} [DecidableEq α] {l : List α}
    {x : α} : x ∈ sortDedup c l ↔ x ∈ l := by
  rw [sortDedup, mem_dedupAdj, mem_sortCmp]

theorem sortDedup_pairwise {c : α → α → Ordering} [DecidableEq α]
    (h : TotalCmp c) (l : List α) :
    (sortDedup c l).Pairwise (fun a b => c a b = .lt) :=
  dedupAdj_pairwise h _ (sortCmp_pairwise h l)

/-! ## HostNetworkGroup -/

/-- Rust `std::net::IpAddr`: a V4 address (32-bit value) or a V6 address
(128-bit value), with the derived order: `V4` before `V6`, numeric within a
family. -/
inductive IpAddr where
  | v4 (a : Nat)
  | v6 (a : Nat)
deriving DecidableEq, Repr

def IpAddr.variantKey : IpAddr → Nat × Nat
  | .v4 a => (0, a)
  | .v6 a => (1, a)

/-- Derived `Ord for IpAddr`. -/
def IpAddr.cmp (x y : IpAddr) : Ordering :=
  prodCmp natCmp natCmp x.variantKey y.variantKey

/-- Rust `ipnet::IpNet`: a V4 or V6 CIDR network, an address plus a prefix
length (`plen` models the source's `prefix_len`), ordered by variant, then
address, then prefix length. -/
inductive IpNet where
  | v4 (addr : Nat) (plen : Nat)
  | v6 (addr : Nat) (plen : Nat)
deriving DecidableEq, Repr

def IpNet.variantKey : IpNet → Nat × Nat × Nat
  | .v4 a p => (0, a, p)
  | .v6 a p => (1, a, p)

/-- Derived `Ord for IpNet`. -/
def IpNet.cmp (x y : IpNet) : Ordering :=
  prodCmp natCmp (prodCmp natCmp natCmp) x.variantKey y.variantKey

/-- Rust `RangeInclusive<IpAddr>`: `stop` models the source's `end()`
bound. -/
structure IpRange where
  start : IpAddr
  stop : IpAddr
deriving DecidableEq, Repr

/-- The comparator of `HostNetworkGroup::new` for ranges: by `start`, then
by `end`. -/
def rangeCmp (a b : IpRange) : Ordering :=
  prodCmp IpAddr.cmp IpAddr.cmp (a.start, a.stop) (b.start, b.stop)

theorem totalCmp_ipaddr : TotalCmp IpAddr.cmp := by
  refine TotalCmp.congrFn (fun a b => rfl)
    (((totalCmp_nat.prod totalCmp_nat)).comap IpAddr.variantKey ?_)
  intro a b
  cases a <;> cases b <;> simp [IpAddr.variantKey]

theorem totalCmp_ipnet : TotalCmp IpNet.cmp := by
  refine TotalCmp.congrFn (fun a b => rfl)
    ((totalCmp_nat.prod (totalCmp_nat.prod totalCmp_nat)).comap IpNet.variantKey ?_)
  intro a b
  cases a <;> cases b <;> simp [IpNet.variantKey]

theorem totalCmp_range : TotalCmp rangeCmp := by
  refine TotalCmp.congrFn (fun a b => rfl)
    ((totalCmp_ipaddr.prod totalCmp_ipaddr).comap
      (fun r : IpRange => (r.start, r.stop)) ?_)
  intro a b
  cases a
  cases b
  simp [Prod.ext_iff]

/-- Translation of `HostNetworkGroup` (`types.rs`): three collections, kept
sorted and deduplicated. -/
structure HostNetworkGroup where
  hosts : List IpAddr
  networks : List IpNet
  ip_ranges : List IpRange
deriving DecidableEq, Repr

/-- Translation of `HostNetworkGroup::new`: sort (`sort_unstable`, and
`sort_unstable_by` start-then-end for the ranges) and `dedup` each input
collection. -/
def HostNetworkGroup.new (hosts : List IpAddr) (networks : List IpNet)
    (ip_ranges : List IpRange) : HostNetworkGroup :=
  ⟨sortDedup IpAddr.cmp hosts, sortDedup IpNet.cmp networks,
    sortDedup rangeCmp ip_ranges⟩

/-- `contains_host`: `self.hosts.binary_search(&host).is_ok()`, modelled by
the contract of `slice::binary_search` on the sorted `hosts` vector: it
succeeds exactly when the element is present. -/
def HostNetworkGroup.contains_host (g : HostNetworkGroup) (host : IpAddr) :
    Bool := decide (host ∈ g.hosts)

/-- `contains_network`: binary search on the sorted `networks` vector,
modelled by its contract. -/
def HostNetworkGroup.contains_network (g : HostNetworkGroup) (network : IpNet) :
    Bool := decide (network ∈ g.networks)

/-- `contains_ip_range`: `self.ip_ranges.contains(ip_range)` — a linear scan
comparing each stored range for structural equality. -/
def HostNetworkGroup.contains_ip_range (g : HostNetworkGroup) (r : IpRange) :
    Bool := decide (r ∈ g.ip_ranges)

/-- `ipnet`'s `IpNet::contains(&IpAddr)`: same-family CIDR containment
(`network() <= addr && addr <= broadcast()`), false across families. -/
def ipnetContains : IpNet → IpAddr → Bool
  | .v4 a p, .v4 x =>
    decide (a / 2 ^ (32 - p) * 2 ^ (32 - p) ≤ x
      ∧ x ≤ a / 2 ^ (32 - p) * 2 ^ (32 - p) + (2 ^ (32 - p) - 1))
  | .v6 a p, .v6 x =>
    decide (a / 2 ^ (128 - p) * 2 ^ (128 - p) ≤ x
      ∧ x ≤ a / 2 ^ (128 - p) * 2 ^ (128 - p) + (2 ^ (128 - p) - 1))
  | _, _ => false

/-- `RangeInclusive::contains`, via `IpAddr`'s order: inclusive bounds. -/
def rangeContains (r : IpRange) (x : IpAddr) : Bool :=
  decide (IpAddr.cmp r.start x ≠ .gt) && decide (IpAddr.cmp x r.stop ≠ .gt)

/-- Translation of `HostNetworkGroup::contains`: host match, then network
match, then range match, short-circuiting. -/
def HostNetworkGroup.contains (g : HostNetworkGroup) (addr : IpAddr) : Bool :=
  g.contains_host addr
    || g.networks.any (fun net => ipnetContains net addr)
    || g.ip_ranges.any (fun range => rangeContains range addr)

/-- C6: for any input (possibly unsorted, with duplicates),
`HostNetworkGroup::new` yields three sorted (ranges by start then end),
duplicate-free collections, and every input host, network and range is
still a member of the constructed group. -/
theorem c6_group_new (hosts : List IpAddr) (networks : List IpNet)
    (ip_ranges : List IpRange) :
    ((HostNetworkGroup.new hosts networks ip_ranges).hosts.Pairwise
        (fun a b => IpAddr.cmp a b = .lt)
      ∧ (HostNetworkGroup.new hosts networks ip_ranges).networks.Pairwise
        (fun a b => IpNet.cmp a b = .lt)
      ∧ (HostNetworkGroup.new hosts networks ip_ranges).ip_ranges.Pairwise
        (fun a b => rangeCmp a b = .lt))
    ∧ ((HostNetworkGroup.new hosts networks ip_ranges).hosts.Nodup
      ∧ (HostNetworkGroup.new hosts networks ip_ranges).networks.Nodup
      ∧ (HostNetworkGroup.new hosts networks ip_ranges).ip_ranges.Nodup)
    ∧ ((∀ h ∈ hosts,
        (HostNetworkGroup.new hosts networks ip_ranges).contains_host h = true)
      ∧ (∀ n ∈ networks,
        (HostNetworkGroup.new hosts networks ip_ranges).contains_network n = true)
      ∧ (∀ r ∈ ip_ranges,
        (HostNetworkGroup.new hosts networks ip_ranges).contains_ip_range r
          = true)) := by
  refine ⟨⟨sortDedup_pairwise totalCmp_ipaddr hosts,
        sortDedup_pairwise totalCmp_ipnet networks,
        sortDedup_pairwise totalCmp_range ip_ranges⟩,
    ⟨?_, ?_, ?_⟩, ?_, ?_, ?_⟩
  · exact (sortDedup_pairwise totalCmp_ipaddr hosts).imp
      (fun hlt => totalCmp_ipaddr.ne_of_lt hlt)
  · exact (sortDedup_pairwise totalCmp_ipnet networks).imp
      (fun hlt => totalCmp_ipnet.ne_of_lt hlt)
  · exact (sortDedup_pairwise totalCmp_range ip_ranges).imp
      (fun hlt => totalCmp_range.ne_of_lt hlt)
  · intro h hmem
    exact decide_eq_true_eq.mpr (mem_sortDedup.mpr hmem)
  · intro n hmem
    exact decide_eq_true_eq.mpr (mem_sortDedup.mpr hmem)
  · intro r hmem
    exact decide_eq_true_eq.mpr (mem_sortDedup.mpr hmem)

/-- C7: `contains(addr)` is true exactly when `addr` is a stored host, or
contained in a stored CIDR network, or within a stored inclusive range (in
that short-circuit order); `contains_ip_range` is exact structural
membership in the range list, not range containment — a strict sub-range of
a stored range is rejected even though both its endpoints satisfy
`contains`. -/
theorem c7_contains_semantics (g : HostNetworkGroup) (a : IpAddr) (r : IpRange) :
    (g.contains a = true ↔
      (a ∈ g.hosts
        ∨ (∃ n ∈ g.networks, ipnetContains n a = true)
        ∨ (∃ rg ∈ g.ip_ranges, rangeContains rg a = true)))
    ∧ (g.contains_ip_range r = true ↔ r ∈ g.ip_ranges)
    ∧ (HostNetworkGroup.contains_ip_range ⟨[], [], [⟨.v4 0, .v4 10⟩]⟩
        ⟨.v4 2, .v4 3⟩ = false
      ∧ HostNetworkGroup.contains ⟨[], [], [⟨.v4 0, .v4 10⟩]⟩ (.v4 2) = true
      ∧ HostNetworkGroup.contains ⟨[], [], [⟨.v4 0, .v4 10⟩]⟩ (.v4 3) = true) := by
  refine ⟨?_, ?_, by decide, by decide, by decide⟩
  · simp only [HostNetworkGroup.contains, HostNetworkGroup.contains_host,
      Bool.or_eq_true, decide_eq_true_eq, List.any_eq_true]
    exact or_assoc
  · simp [HostNetworkGroup.contains_ip_range]

/-! ## Ordering value types: Ti, PacketAttr, Confidence, Response -/

/-- Rust `f64::total_cmp` key: maps an IEEE 754 bit pattern to a signed
integer that is monotone in the totalOrder predicate (sign-magnitude to
two's complement mangling). -/
def totalKey (bits : Nat) : Int :=
  if bits < 2 ^ 63 then (bits : Int) else -((bits : Int) - 2 ^ 63) - 1

/-- `f64::total_cmp`, on bit patterns. -/
def totalCmpF64 (a b : Nat) : Ordering := intCmp (totalKey a) (totalKey b)

theorem totalKey_inj : ∀ a b : Nat, totalKey a = totalKey b → a = b := by
  intro a b
  unfold totalKey
  split <;> split <;> omega

theorem totalCmp_f64 : TotalCmp totalCmpF64 :=
  TotalCmp.congrFn (fun a b => rfl) (totalCmp_int.comap totalKey totalKey_inj)

/-- `TiCmpKind` (`types.rs`), a C-like enum with derived `Ord`. -/
inductive TiCmpKind where
  | ipAddress
  | domain
  | hostname
  | uri
deriving DecidableEq, Repr, Fintype

def TiCmpKind.toNat : TiCmpKind → Nat
  | .ipAddress => 0
  | .domain => 1
  | .hostname => 2
  | .uri => 3

/-- Derived `Ord for TiCmpKind`: discriminant order. -/
def TiCmpKind.cmp (a b : TiCmpKind) : Ordering := natCmp a.toNat b.toNat

theorem tiCmpKind_toNat_inj : ∀ a b : TiCmpKind, a.toNat = b.toNat → a = b := by
  decide

/-- `ValueKind` (`types.rs`). -/
inductive ValueKind where
  | string
  | integer
  | float
deriving DecidableEq, Repr, Fintype

def ValueKind.toNat : ValueKind → Nat
  | .string => 0
  | .integer => 1
  | .float => 2

/-- Derived `Ord for ValueKind`. -/
def ValueKind.cmp (a b : ValueKind) : Ordering := natCmp a.toNat b.toNat

theorem valueKind_toNat_inj : ∀ a b : ValueKind, a.toNat = b.toNat → a = b := by
  decide

/-- `AttrCmpKind` (`types.rs`). -/
inductive AttrCmpKind where
  | less
  | equal
  | greater
  | lessOrEqual
  | greaterOrEqual
  | contain
  | openRange
  | closeRange
  | leftOpenRange
  | rightOpenRange
  | notEqual
  | notContain
  | notOpenRange
  | notCloseRange
  | notLeftOpenRange
  | notRightOpenRange
deriving DecidableEq, Repr, Fintype

def AttrCmpKind.toNat : AttrCmpKind → Nat
  | .less => 0
  | .equal => 1
  | .greater => 2
  | .lessOrEqual => 3
  | .greaterOrEqual => 4
  | .contain => 5
  | .openRange => 6
  | .closeRange => 7
  | .leftOpenRange => 8
  | .rightOpenRange => 9
  | .notEqual => 10
  | .notContain => 11
  | .notOpenRange => 12
  | .notCloseRange => 13
  | .notLeftOpenRange => 14
  | .notRightOpenRange => 15

/-- Derived `Ord for AttrCmpKind`. -/
def AttrCmpKind.cmp (a b : AttrCmpKind) : Ordering := natCmp a.toNat b.toNat

theorem attrCmpKind_toNat_inj :
    ∀ a b : AttrCmpKind, a.toNat = b.toNat → a = b := by decide

/-- `ResponseKind` (`types.rs`). -/
inductive ResponseKind where
  | manual
  | blacklist
  | whitelist
deriving DecidableEq, Repr, Fintype

def ResponseKind.toNat : ResponseKind → Nat
  | .manual => 0
  | .blacklist => 1
  | .whitelist => 2

/-- Derived `Ord for ResponseKind`. -/
def ResponseKind.cmp (a b : ResponseKind) : Ordering := natCmp a.toNat b.toNat

theorem responseKind_toNat_inj :
    ∀ a b : ResponseKind, a.toNat = b.toNat → a = b := by decide

/-- `EventCategory` (`types.rs`), discriminants 1 through 10. -/
inductive EventCategory where
  | reconnaissance
  | initialAccess
  | execution
  | credentialAccess
  | discovery
  | lateralMovement
  | commandAndControl
  | exfiltration
  | impact
  | httpThreat
deriving DecidableEq, Repr, Fintype

def EventCategory.toNat : EventCategory → Nat
  | .reconnaissance => 1
  | .initialAccess => 2
  | .execution => 3
  | .credentialAccess => 4
  | .discovery => 5
  | .lateralMovement => 6
  | .commandAndControl => 7
  | .exfiltration => 8
  | .impact => 9
  | .httpThreat => 10

/-- Derived `Ord for EventCategory`. -/
def EventCategory.cmp (a b : EventCategory) : Ordering := natCmp a.toNat b.toNat

theorem eventCategory_toNat_inj :
    ∀ a b : EventCategory, a.toNat = b.toNat → a = b := by decide

/-- `Ti` (`types.rs`): a threat-intelligence entry.  `weight` holds the bit
pattern of the optional `f64`. -/
structure Ti where
  ti_name : List Nat
  kind : TiCmpKind
  weight : Option Nat
deriving DecidableEq, Repr

/-- Translation of `Ti::cmp`: name, then kind, then weight (`None` before
`Some`, `total_cmp` between values). -/
def Ti.cmp (s o : Ti) : Ordering :=
  ordThen (cmpList s.ti_name o.ti_name)
    (ordThen (TiCmpKind.cmp s.kind o.kind)
      (optCmp totalCmpF64 s.weight o.weight))

def Ti.enc (t : Ti) : List Nat × Nat × Option Nat :=
  (t.ti_name, t.kind.toNat, t.weight)

theorem totalCmp_ti : TotalCmp Ti.cmp := by
  refine TotalCmp.congrFn (fun a b => rfl)
    ((totalCmp_list.prod (totalCmp_nat.prod totalCmp_f64.opt)).comap Ti.enc ?_)
  intro a b he
  cases a
  cases b
  simp only [Ti.enc, Prod.mk.injEq] at he
  simp only [Ti.mk.injEq]
  exact ⟨he.1, tiCmpKind_toNat_inj _ _ he.2.1, he.2.2⟩

/-- `PacketAttr` (`types.rs`): a packet attribute matcher.  Byte payloads
are byte strings, `weight` an optional `f64` bit pattern. -/
structure PacketAttr where
  attr_name : List Nat
  value_kind : ValueKind
  cmp_kind : AttrCmpKind
  first_value : List Nat
  second_value : Option (List Nat)
  weight : Option Nat
deriving DecidableEq, Repr

/-- Translation of `PacketAttr::cmp`: attr_name, value_kind, cmp_kind,
first_value, second_value, then weight. -/
def PacketAttr.cmp (s o : PacketAttr) : Ordering :=
  ordThen (cmpList s.attr_name o.attr_name)
    (ordThen (ValueKind.cmp s.value_kind o.value_kind)
      (ordThen (AttrCmpKind.cmp s.cmp_kind o.cmp_kind)
        (ordThen (cmpList s.first_value o.first_value)
          (ordThen (optCmp cmpList s.second_value o.second_value)
            (optCmp totalCmpF64 s.weight o.weight)))))

def PacketAttr.enc (p : PacketAttr) :
    List Nat × Nat × Nat × List Nat × Option (List Nat) × Option Nat :=
  (p.attr_name, p.value_kind.toNat, p.cmp_kind.toNat, p.first_value,
    p.second_value, p.weight)

theorem totalCmp_packetAttr : TotalCmp PacketAttr.cmp := by
  refine TotalCmp.congrFn (fun a b => rfl)
    ((totalCmp_list.prod (totalCmp_nat.prod (totalCmp_nat.prod
      (totalCmp_list.prod (totalCmp_list.opt.prod totalCmp_f64.opt))))).comap
      PacketAttr.enc ?_)
  intro a b he
  cases a
  cases b
  simp only [PacketAttr.enc, Prod.mk.injEq] at he
  simp only [PacketAttr.mk.injEq]
  exact ⟨he.1, valueKind_toNat_inj _ _ he.2.1, attrCmpKind_toNat_inj _ _ he.2.2.1,
    he.2.2.2.1, he.2.2.2.2.1, he.2.2.2.2.2⟩

/-- `Confidence` (`types.rs`).  `confidence` is the bit pattern of the
plain `f64` field; `weight` of the optional one. -/
structure Confidence where
  threat_category : EventCategory
  threat_kind : List Nat
  confidence : Nat
  weight : Option Nat
deriving DecidableEq, Repr

/-- Translation of `Confidence::cmp`: threat_category, threat_kind,
confidence (`total_cmp`), then weight. -/
def Confidence.cmp (s o : Confidence) : Ordering :=
  ordThen (EventCategory.cmp s.threat_category o.threat_category)
    (ordThen (cmpList s.threat_kind o.threat_kind)
      (ordThen (totalCmpF64 s.confidence o.confidence)
        (optCmp totalCmpF64 s.weight o.weight)))

def Confidence.enc (c : Confidence) : Nat × List Nat × Nat × Option Nat :=
  (c.threat_category.toNat, c.threat_kind, c.confidence, c.weight)

theorem totalCmp_confidence : TotalCmp Confidence.cmp := by
  refine TotalCmp.congrFn (fun a b => rfl)
    ((totalCmp_nat.prod (totalCmp_list.prod
      (totalCmp_f64.prod totalCmp_f64.opt))).comap Confidence.enc ?_)
  intro a b he
  cases a
  cases b
  simp only [Confidence.enc, Prod.mk.injEq] at he
  simp only [Confidence.mk.injEq]
  exact ⟨eventCategory_toNat_inj _ _ he.1, he.2.1, he.2.2.1, he.2.2.2⟩

/-- `Response` (`types.rs`).  `minimum_score` is an `f64` bit pattern. -/
structure Response where
  minimum_score : Nat
  kind : ResponseKind
deriving DecidableEq, Repr

/-- Translation of `Response::cmp`: minimum_score (`total_cmp`), then
kind. -/
def Response.cmp (s o : Response) : Ordering :=
  ordThen (totalCmpF64 s.minimum_score o.minimum_score)
    (ResponseKind.cmp s.kind o.kind)

def Response.enc (r : Response) : Nat × Nat := (r.minimum_score, r.kind.toNat)

theorem totalCmp_response : TotalCmp Response.cmp := by
  refine TotalCmp.congrFn (fun a b => rfl)
    ((totalCmp_f64.prod totalCmp_nat).comap Response.enc ?_)
  intro a b he
  cases a
  cases b
  simp only [Response.enc, Prod.mk.injEq] at he
  simp only [Response.mk.injEq]
  exact ⟨he.1, responseKind_toNat_inj _ _ he.2⟩

/-- C8: the `cmp` functions of `Ti`, `PacketAttr`, `Confidence` and
`Response` each define a total order (lexicographic over their fields,
`None` before `Some`, floats by IEEE total ordering): each is reflexive,
compares equal only on equal values (even with NaN bit patterns), is
antisymmetric via `swap`, and is transitive. -/
theorem c8_total_orders :
    ((∀ a : Ti, Ti.cmp a a = .eq)
      ∧ (∀ a b : Ti, Ti.cmp a b = .eq → a = b)
      ∧ (∀ a b : Ti, (Ti.cmp a b).swap = Ti.cmp b a)
      ∧ (∀ a b c : Ti, Ti.cmp a b = .lt → Ti.cmp b c = .lt → Ti.cmp a c = .lt))
    ∧ ((∀ a : PacketAttr, PacketAttr.cmp a a = .eq)
      ∧ (∀ a b : PacketAttr, PacketAttr.cmp a b = .eq → a = b)
      ∧ (∀ a b : PacketAttr, (PacketAttr.cmp a b).swap = PacketAttr.cmp b a)
      ∧ (∀ a b c : PacketAttr, PacketAttr.cmp a b = .lt →
          PacketAttr.cmp b c = .lt → PacketAttr.cmp a c = .lt))
    ∧ ((∀ a : Confidence, Confidence.cmp a a = .eq)
      ∧ (∀ a b : Confidence, Confidence.cmp a b = .eq → a = b)
      ∧ (∀ a b : Confidence, (Confidence.cmp a b).swap = Confidence.cmp b a)
      ∧ (∀ a b c : Confidence, Confidence.cmp a b = .lt →
          Confidence.cmp b c = .lt → Confidence.cmp a c = .lt))
    ∧ ((∀ a : Response, Response.cmp a a = .eq)
      ∧ (∀ a b : Response, Response.cmp a b = .eq → a = b)
      ∧ (∀ a b : Response, (Response.cmp a b).swap = Response.cmp b a)
      ∧ (∀ a b c : Response, Response.cmp a b = .lt →
          Response.cmp b c = .lt → Response.cmp a c = .lt)) :=
  ⟨⟨totalCmp_ti.refl, fun a b => (totalCmp_ti.eq_iff a b).mp,
      totalCmp_ti.swap_eq, totalCmp_ti.lt_trans⟩,
    ⟨totalCmp_packetAttr.refl, fun a b => (totalCmp_packetAttr.eq_iff a b).mp,
      totalCmp_packetAttr.swap_eq, totalCmp_packetAttr.lt_trans⟩,
    ⟨totalCmp_confidence.refl, fun a b => (totalCmp_confidence.eq_iff a b).mp,
      totalCmp_confidence.swap_eq, totalCmp_confidence.lt_trans⟩,
    ⟨totalCmp_response.refl, fun a b => (totalCmp_response.eq_iff a b).mp,
      totalCmp_response.swap_eq, totalCmp_response.lt_trans⟩⟩

/-- Witness: the implication components of `c8_total_orders` (equality and
transitivity), applied at concrete values of each type. -/
theorem c8_witness :
    ((⟨[5], .domain, none⟩ : Ti) = ⟨[5], .domain, none⟩
      ∧ Ti.cmp ⟨[0], .ipAddress, none⟩ ⟨[2], .ipAddress, none⟩ = .lt)
    ∧ ((⟨[5], .string, .less, [], none, none⟩ : PacketAttr) =
        ⟨[5], .string, .less, [], none, none⟩
      ∧ PacketAttr.cmp ⟨[0], .string, .less, [], none, none⟩
          ⟨[2], .string, .less, [], none, none⟩ = .lt)
    ∧ ((⟨.impact, [5], 0, none⟩ : Confidence) = ⟨.impact, [5], 0, none⟩
      ∧ Confidence.cmp ⟨.impact, [0], 0, none⟩ ⟨.impact, [2], 0, none⟩ = .lt)
    ∧ ((⟨5, .manual⟩ : Response) = ⟨5, .manual⟩
      ∧ Response.cmp ⟨0, .manual⟩ ⟨2, .manual⟩ = .lt) :=
  ⟨⟨c8_total_orders.1.2.1 ⟨[5], .domain, none⟩ ⟨[5], .domain, none⟩ (by decide),
      c8_total_orders.1.2.2.2 ⟨[0], .ipAddress, none⟩ ⟨[1], .ipAddress, none⟩
        ⟨[2], .ipAddress, none⟩ (by decide) (by decide)⟩,
    ⟨c8_total_orders.2.1.2.1 ⟨[5], .string, .less, [], none, none⟩
        ⟨[5], .string, .less, [], none, none⟩ (by decide),
      c8_total_orders.2.1.2.2.2 ⟨[0], .string, .less, [], none, none⟩
        ⟨[1], .string, .less, [], none, none⟩
        ⟨[2], .string, .less, [], none, none⟩ (by decide) (by decide)⟩,
    ⟨c8_total_orders.2.2.1.2.1 ⟨.impact, [5], 0, none⟩ ⟨.impact, [5], 0, none⟩
        (by decide),
      c8_total_orders.2.2.1.2.2.2 ⟨.impact, [0], 0, none⟩ ⟨.impact, [1], 0, none⟩
        ⟨.impact, [2], 0, none⟩ (by decide) (by decide)⟩,
    ⟨c8_total_orders.2.2.2.2.1 ⟨5, .manual⟩ ⟨5, .manual⟩ (by decide),
      c8_total_orders.2.2.2.2.2.2 ⟨0, .manual⟩ ⟨1, .manual⟩ ⟨2, .manual⟩
        (by decide) (by decide)⟩⟩

/-! ## Rust `PartialEq` on floating-point carriers (for C10) -/

/-- IEEE 754 NaN test on a 64-bit pattern: exponent all ones, nonzero
mantissa. -/
def isNaN (bits : Nat) : Bool :=
  decide ((bits / 2 ^ 52) % 2 ^ 11 = 2047 ∧ bits % 2 ^ 52 ≠ 0)

/-- Identify `-0.0` (pattern `2^63`) with `+0.0`. -/
def canonZero (bits : Nat) : Nat := if bits = 2 ^ 63 then 0 else bits

/-- Rust `f64`'s `PartialEq` (IEEE equality) on bit patterns: `NaN != NaN`
(even against itself), `+0.0 == -0.0`, otherwise equality of patterns. -/
def f64Beq (a b : Nat) : Bool :=
  !isNaN a && !isNaN b && decide (canonZero a = canonZero b)

/-- Derived `PartialEq for Option<f64>`. -/
def optBeq (f : α → α → Bool) : Option α → Option α → Bool
  | none, none => true
  | some a, some b => f a b
  | _, _ => false

/-- The bit pattern of `f64::NAN` (`0x7FF8_0000_0000_0000`). -/
def nanBits : Nat := 9221120237041090560

/-- Derived `PartialEq for Ti`. -/
def Ti.beq (a b : Ti) : Bool :=
  decide (a.ti_name = b.ti_name) && decide (a.kind = b.kind)
    && optBeq f64Beq a.weight b.weight

/-- Derived `PartialEq for PacketAttr`. -/
def PacketAttr.beq (a b : PacketAttr) : Bool :=
  decide (a.attr_name = b.attr_name) && decide (a.value_kind = b.value_kind)
    && decide (a.cmp_kind = b.cmp_kind) && decide (a.first_value = b.first_value)
    && decide (a.second_value = b.second_value)
    && optBeq f64Beq a.weight b.weight

/-- Derived `PartialEq for Confidence`. -/
def Confidence.beq (a b : Confidence) : Bool :=
  decide (a.threat_category = b.threat_category)
    && decide (a.threat_kind = b.threat_kind)
    && f64Beq a.confidence b.confidence
    && optBeq f64Beq a.weight b.weight

/-- Derived `PartialEq for Response`. -/
def Response.beq (a b : Response) : Bool :=
  f64Beq a.minimum_score b.minimum_score && decide (a.kind = b.kind)

/-- C10: for each of `Ti`, `PacketAttr`, `Confidence` and `Response`, a value
carrying a NaN floating-point field compares `Equal` to itself under `cmp`
while the derived `PartialEq` reports it unequal to itself — `Ord`-equality
does not imply `==`. -/
theorem c10_nan_cmp_eq_but_not_beq :
    (Ti.cmp ⟨[], .ipAddress, some nanBits⟩ ⟨[], .ipAddress, some nanBits⟩ = .eq
      ∧ Ti.beq ⟨[], .ipAddress, some nanBits⟩ ⟨[], .ipAddress, some nanBits⟩
        = false)
    ∧ (PacketAttr.cmp ⟨[], .string, .less, [], none, some nanBits⟩
        ⟨[], .string, .less, [], none, some nanBits⟩ = .eq
      ∧ PacketAttr.beq ⟨[], .string, .less, [], none, some nanBits⟩
        ⟨[], .string, .less, [], none, some nanBits⟩ = false)
    ∧ (Confidence.cmp ⟨.impact, [], 0, some nanBits⟩
        ⟨.impact, [], 0, some nanBits⟩ = .eq
      ∧ Confidence.beq ⟨.impact, [], 0, some nanBits⟩
        ⟨.impact, [], 0, some nanBits⟩ = false)
    ∧ (Response.cmp ⟨nanBits, .manual⟩ ⟨nanBits, .manual⟩ = .eq
      ∧ Response.beq ⟨nanBits, .manual⟩ ⟨nanBits, .manual⟩ = false) := by
  decide

/-! ## Column statistics: insert_top_n (binary.rs) -/

/-- `structured::Element`, reduced to the one distinction `insert_top_n`
observes: a `Binary` payload versus any other variant. -/
inductive Element where
  | binary (b : List Nat)
  | other (tag : Nat)
deriving DecidableEq, Repr

/-- The `value` computed per element: the binary payload, or SQL null for a
non-binary element. -/
def elemValue : Element → Option (List Nat)
  | .binary b => some b
  | .other _ => none

/-- One entry of `column_stats.n_largest_count.top_n()`: a value and its
occurrence count (a `usize`). -/
structure ElementCount where
  value : Element
  count : Nat
deriving DecidableEq, Repr

/-- A row of the `description_binary` table. -/
structure DescriptionBinary where
  description_id : Int
  mode : List Nat
deriving DecidableEq, Repr

/-- A row of the `top_n_binary` table. -/
structure TopNBinary where
  description_id : Int
  value : Option (List Nat)
  count : Int
deriving DecidableEq, Repr

/-- `i64::try_from` on a `usize`: succeeds exactly up to `i64::MAX`. -/
def i64TryFrom (n : Nat) : Option Int :=
  if n ≤ 2 ^ 63 - 1 then some (n : Int) else none

/-- The per-element row construction of `insert_top_n`; `none` models the
`expect("Must be less than i64::MAX")` panic. -/
def topNRow (description_id : Int) (e : ElementCount) : Option TopNBinary :=
  (i64TryFrom e.count).map fun cnt => ⟨description_id, elemValue e.value, cnt⟩

/-- Translation of `insert_top_n` (`binary.rs`), as the rows handed to the
SQL client: one description row `(description_id, mode)` plus one top-n row
per element; `none` models the panic on a count outside the `i64` range
(the function's `Result` error channel never carries that condition). -/
def insertTopN (description_id : Int) (topn : List ElementCount)
    (mode : List Nat) : Option (DescriptionBinary × List TopNBinary) :=
  (topn.mapM (topNRow description_id)).map fun rows =>
    (⟨description_id, mode⟩, rows)

theorem mapM_topNRow_all {description_id : Int} :
    ∀ topn : List ElementCount, (∀ e ∈ topn, e.count ≤ 2 ^ 63 - 1) →
      topn.mapM (topNRow description_id) =
        some (topn.map fun e =>
          ⟨description_id, elemValue e.value, (e.count : Int)⟩) := by
  intro topn
  induction topn with
  | nil =>
    intro _
    rfl
  | cons e rest ih =>
    intro hall
    have he : topNRow description_id e =
        some ⟨description_id, elemValue e.value, (e.count : Int)⟩ := by
      unfold topNRow i64TryFrom
      rw [if_pos (hall e (List.mem_cons_self _ _))]
      rfl
    rw [List.mapM_cons, he, ih (fun x hx => hall x (List.mem_cons_of_mem _ hx))]
    rfl

theorem mapM_topNRow_overflow {description_id : Int} :
    ∀ topn : List ElementCount, (∃ e ∈ topn, 2 ^ 63 - 1 < e.count) →
      topn.mapM (topNRow description_id) = none := by
  intro topn
  induction topn with
  | nil =>
    rintro ⟨e, he, _⟩
    simp at he
  | cons a rest ih =>
    rintro ⟨e, he, hcnt⟩
    rw [List.mapM_cons]
    rcases List.mem_cons.mp he with heq | hrest
    · have hrow : topNRow description_id a = none := by
        unfold topNRow i64TryFrom
        rw [if_neg (by rw [heq] at hcnt; omega)]
        rfl
      rw [hrow]
      rfl
    · rw [ih ⟨e, hrest, hcnt⟩]
      cases topNRow description_id a <;> rfl

/-- C9: `insert_top_n` produces exactly one description row
`(description_id, mode)` and one top-n row per element, each carrying the
same `description_id`, a null value exactly when the element is not binary,
and the count converted to `i64`; a count beyond the `i64` range is a panic
(modelled by `none`), never an error value. -/
theorem c9_insert_top_n (description_id : Int) (topn : List ElementCount)
    (mode : List Nat) :
    ((∀ e ∈ topn, e.count ≤ 2 ^ 63 - 1) →
      insertTopN description_id topn mode =
        some (⟨description_id, mode⟩,
          topn.map fun e => ⟨description_id, elemValue e.value, (e.count : Int)⟩))
    ∧ ((∃ e ∈ topn, 2 ^ 63 - 1 < e.count) →
      insertTopN description_id topn mode = none)
    ∧ (∀ b, elemValue (.binary b) = some b)
    ∧ (∀ t, elemValue (.other t) = none) := by
  refine ⟨?_, ?_, fun b => rfl, fun t => rfl⟩
  · intro hall
    unfold insertTopN
    rw [mapM_topNRow_all topn hall]
    rfl
  · intro hex
    unfold insertTopN
    rw [mapM_topNRow_overflow topn hex]
    rfl

/-- Witness: `c9_insert_top_n` applied to a concrete two-element top-n
list, one binary and one non-binary. -/
theorem c9_witness :
    insertTopN 7 [⟨.binary [1], 3⟩, ⟨.other 0, 5⟩] [9] =
      some (⟨7, [9]⟩, [⟨7, some [1], 3⟩, ⟨7, none, 5⟩]) :=
  (c9_insert_top_n 7 [⟨.binary [1], 3⟩, ⟨.other 0, 5⟩] [9]).1 (by decide)

/-- Witness: `c6_group_new`'s membership clause on a concrete unsorted,
duplicated input. -/
theorem c6_witness :
    (HostNetworkGroup.new [.v4 5, .v4 1, .v4 5] [] []).contains_host (.v4 5)
      = true :=
  (c6_group_new [.v4 5, .v4 1, .v4 5] [] []).2.2.1 (.v4 5) (by decide)
